import Mathlib

/-!
Shallow embedding of the FanEngagement utility scripts.

The embedding models the two Python scripts:
  * scripts/create_issues_from_docs.py : the front-matter parser
    (parse_frontmatter), the duplicate checker (issue_exists) and the
    issue-creation command construction in main.
  * scripts/convert_md_to_docx.py : convert_file and the directory
    branch of process_path.

Python strings are modelled as lists of characters (PyStr).  Python's
str.strip family is modelled over the ASCII whitespace characters
(space, tab, newline, carriage return, vertical tab, form feed), the
set Python uses on ASCII input.  Dictionaries are modelled as
association lists with Python's insertion semantics: assigning to an
existing key overwrites its value in place, assigning to a fresh key
appends.  Sub-process and file-system effects are modelled as explicit
inputs (query outcomes, directory listings) and outputs (event lists,
command lines).
-/

namespace FanEngagement

/-- Python strings, modelled as lists of characters. -/
abbrev PyStr := List Char

/-- The double-quote character. -/
def dqCh : Char := Char.ofNat 34

/-- The single-quote character. -/
def sqCh : Char := Char.ofNat 39

/-- Python whitespace (ASCII): the characters stripped by str.strip(). -/
def isPySpace (c : Char) : Bool :=
  c = ' ' || c = '\t' || c = '\n' || c = '\r' || c = Char.ofNat 11 || c = Char.ofNat 12

/-- Python str.lstrip(): drop leading whitespace. -/
def lstrip (s : PyStr) : PyStr := s.dropWhile isPySpace

/-- Python str.rstrip(): drop trailing whitespace. -/
def rstrip (s : PyStr) : PyStr := (s.reverse.dropWhile isPySpace).reverse

/-- Python str.strip(): drop leading and trailing whitespace. -/
def pyStrip (s : PyStr) : PyStr := rstrip (lstrip s)

/-- One step of Python str.split(sep): prepend a character to the split
of the rest of the string. -/
def splitStep (sep : Char) (c : Char) (r : List PyStr) : List PyStr :=
  if c = sep then [] :: r else (c :: r.headD []) :: r.tail

/-- Python str.split(sep) for a one-character separator: the empty
string splits to one empty piece, and every separator occurrence opens
a new piece. -/
def pySplit (sep : Char) (s : PyStr) : List PyStr :=
  s.foldr (splitStep sep) [[]]

/-- A metadata value: Python values in the parsed mapping are either
strings or lists of strings. -/
inductive Value where
  | str : PyStr → Value
  | list : List PyStr → Value
deriving DecidableEq

/-- The metadata dictionary, an association list in insertion order. -/
abbrev Dict := List (PyStr × Value)

/-- Python dict assignment: overwrite in place when the key is present,
append otherwise. -/
def dictInsert (k : PyStr) (v : Value) (m : Dict) : Dict :=
  if m.any (fun p => decide (p.1 = k)) then
    m.map (fun p => if p.1 = k then (k, v) else p)
  else m ++ [(k, v)]

/-- Python dict lookup (as an Option). -/
def dictGet (m : Dict) (k : PyStr) : Option Value :=
  match m with
  | [] => none
  | (k2, v) :: rest => if k2 = k then some v else dictGet rest k

/-- The literal sequence three dashes. -/
def dash3 : PyStr := ['-', '-', '-']

/-- The opening front-matter marker with its newline: what the regex
anchor consumes at the start of the text. -/
def openTok : PyStr := ['-', '-', '-', '\n']

/-- The closing front-matter separator: newline, three dashes, newline.
The non-greedy regex group ends at the first occurrence of this
sequence. -/
def sepTok : PyStr := ['\n', '-', '-', '-', '\n']

/-- Split a string at the first occurrence of sepTok: the non-greedy
part of the regex match in parse_frontmatter.  Returns the text before
the separator and the text after it, or none when the separator does
not occur. -/
def splitAtSep : PyStr → Option (PyStr × PyStr)
  | [] => none
  | c :: rest =>
    if sepTok.isPrefixOf (c :: rest) then some ([], rest.drop 4)
    else (splitAtSep rest).map (fun pq => (c :: pq.1, pq.2))

/-- The regex match of parse_frontmatter:
re.match(r starting with three dashes, a newline, a non-greedy group,
a newline-dashes-newline separator and a greedy tail, with DOTALL).
Returns the two groups (front-matter block, remaining text) on
success. -/
def matchFrontmatter (content : PyStr) : Option (PyStr × PyStr) :=
  if openTok.isPrefixOf content then splitAtSep (content.drop 4) else none

/-- Quote stripping as written in parse_frontmatter: drop the first and
last character when they are a matching pair of double or single
quotes. -/
def stripQuotes (v : PyStr) : PyStr :=
  if (v.head? = some dqCh ∧ v.getLast? = some dqCh) ∨
     (v.head? = some sqCh ∧ v.getLast? = some sqCh) then
    (v.drop 1).dropLast
  else v

/-- Value interpretation in parse_frontmatter: a trimmed value that
starts with an opening bracket and ends with a closing bracket is a
list (brackets removed, interior split on commas, each piece trimmed
and quote-stripped; a falsy empty interior yields the empty list);
anything else is a quote-stripped scalar. -/
def parseValue (value : PyStr) : Value :=
  if value.head? = some '[' ∧ value.getLast? = some ']' then
    let inner := (value.drop 1).dropLast
    if inner = [] then Value.list []
    else Value.list ((pySplit ',' inner).map (fun part => stripQuotes (pyStrip part)))
  else Value.str (stripQuotes value)

/-- One line of the front-matter block, as handled by the loop in
parse_frontmatter: trim the line, skip it when it is empty or has no
colon, otherwise split at the first colon into a trimmed key and a
trimmed, interpreted value. -/
def lineKV (rawLine : PyStr) : Option (PyStr × Value) :=
  let line := pyStrip rawLine
  if line = [] then none
  else if ':' ∈ line then
    let key := pyStrip (line.takeWhile (fun c => decide (c ≠ ':')))
    let value := pyStrip ((line.dropWhile (fun c => decide (c ≠ ':'))).tail)
    some (key, parseValue value)
  else none

/-- The body of the parsing loop: fold one raw line into the metadata
dictionary. -/
def processLine (metadata : Dict) (rawLine : PyStr) : Dict :=
  match lineKV rawLine with
  | none => metadata
  | some (k, v) => dictInsert k v metadata

/-- parse_frontmatter from create_issues_from_docs.py: match the
front-matter pattern; when it is absent return the empty mapping and
the whole input unchanged, otherwise split the block into lines, fold
them into the mapping, and return it with the stripped remaining
text. -/
def parse_frontmatter (content : PyStr) : Dict × PyStr :=
  match matchFrontmatter content with
  | none => ([], content)
  | some (raw, rest) =>
    ((pySplit '\n' raw).foldl processLine [], pyStrip rest)

/-- Does the pattern occur as a contiguous substring? -/
def hasSubstr (pat : PyStr) : PyStr → Bool
  | [] => pat.isPrefixOf []
  | c :: rest => pat.isPrefixOf (c :: rest) || hasSubstr pat rest

/-! ### Re-serialization (for the round-trip property)

The repository has no serializer; the spec describes the round trip as
re-serializing the metadata back into key-colon-value lines, with list
values in bracketed, comma-separated, quoted form, between the dash
markers.  The definitions below follow those words of the spec. -/

/-- Modelled from the spec: re-serialize one metadata value.  A scalar
is emitted verbatim; a list is emitted in bracketed, comma-separated,
double-quoted form. -/
def serializeValue : Value → PyStr
  | Value.str s => s
  | Value.list items =>
    '[' :: (List.intercalate [',', ' '] (items.map (fun i => dqCh :: (i ++ [dqCh]))) ++ [']'])

/-- Modelled from the spec: one key-colon-value line. -/
def serializeEntry (p : PyStr × Value) : PyStr :=
  p.1 ++ ':' :: ' ' :: serializeValue p.2

/-- Modelled from the spec: the whole front-matter document, the
serialized lines between the two dash marker lines. -/
def serializeFrontmatter (m : Dict) : PyStr :=
  openTok ++ (List.intercalate ['\n'] (m.map serializeEntry) ++ sepTok)

/-- A key the line format supports: already trimmed, no colon and no
newline. -/
def WfKey (k : PyStr) : Prop :=
  lstrip k = k ∧ rstrip k = k ∧ ':' ∉ k ∧ '\n' ∉ k

/-- A scalar value the format supports: already trimmed, no newline,
not bracket-shaped and not wrapped in a matching pair of quotes. -/
def WfScalar (v : PyStr) : Prop :=
  lstrip v = v ∧ rstrip v = v ∧ '\n' ∉ v ∧
  ¬(v.head? = some '[' ∧ v.getLast? = some ']') ∧
  ¬(v.head? = some dqCh ∧ v.getLast? = some dqCh) ∧
  ¬(v.head? = some sqCh ∧ v.getLast? = some sqCh)

/-- A list item the format supports: no comma and no newline. -/
def WfItem (s : PyStr) : Prop := ',' ∉ s ∧ '\n' ∉ s

/-- A value the format supports. -/
def WfValue : Value → Prop
  | Value.str s => WfScalar s
  | Value.list items => ∀ i ∈ items, WfItem i

/-- A metadata mapping the format supports: distinct keys, each entry
well-formed. -/
def WfDict (m : Dict) : Prop :=
  (m.map Prod.fst).Nodup ∧ ∀ p ∈ m, WfKey p.1 ∧ WfValue p.2

instance (k : PyStr) : Decidable (WfKey k) :=
  inferInstanceAs (Decidable (lstrip k = k ∧ rstrip k = k ∧ ':' ∉ k ∧ '\n' ∉ k))

instance (v : PyStr) : Decidable (WfScalar v) :=
  inferInstanceAs (Decidable (lstrip v = v ∧ rstrip v = v ∧ '\n' ∉ v ∧
    ¬(v.head? = some '[' ∧ v.getLast? = some ']') ∧
    ¬(v.head? = some dqCh ∧ v.getLast? = some dqCh) ∧
    ¬(v.head? = some sqCh ∧ v.getLast? = some sqCh)))

instance (s : PyStr) : Decidable (WfItem s) :=
  inferInstanceAs (Decidable (',' ∉ s ∧ '\n' ∉ s))

instance : (v : Value) → Decidable (WfValue v)
  | Value.str s => inferInstanceAs (Decidable (WfScalar s))
  | Value.list items => inferInstanceAs (Decidable (∀ i ∈ items, WfItem i))

instance (m : Dict) : Decidable (WfDict m) :=
  inferInstanceAs (Decidable ((m.map Prod.fst).Nodup ∧ ∀ p ∈ m, WfKey p.1 ∧ WfValue p.2))

/-! ### The duplicate checker (issue_exists)

The sub-process call and the JSON decoding are modelled by their
outcome: either any failure along the way (tool missing, non-zero
exit, undecodable response), or the decoded list of issue titles.
The function returns the boolean result paired with the warnings it
prints. -/

/-- Outcome of the tracker query made by issue_exists. -/
inductive QueryResult where
  | failure : PyStr → QueryResult
  | success : List PyStr → QueryResult
deriving DecidableEq

/-- The warning printed by issue_exists on any query failure. -/
def warnMsg (e : PyStr) : PyStr :=
  "Warning: Could not check if issue exists: ".toList ++ e

/-- issue_exists from create_issues_from_docs.py: on success, true
exactly when some returned issue title equals the candidate; on any
failure, false together with one warning line. -/
def issue_exists (title : PyStr) (q : QueryResult) : Bool × List PyStr :=
  match q with
  | QueryResult.success titles => (titles.any (fun t => decide (t = title)), [])
  | QueryResult.failure e => (false, [warnMsg e])

/-! ### Issue-creation command construction (main) -/

/-- The labels key. -/
def labelsKey : PyStr := "labels".toList

/-- metadata.get of the labels key with the empty-list default, as in
main. -/
def getLabels (m : Dict) : Value :=
  (dictGet m labelsKey).getD (Value.list [])

/-- The gh issue create command built by main: the fixed arguments,
then one label flag and argument per element of the labels value.
Iterating a Python string yields its characters, so a scalar labels
value contributes one one-character label per character. -/
def buildIssueCmd (title body : PyStr) (labels : Value) : List PyStr :=
  let base := ["gh".toList, "issue".toList, "create".toList,
               "--title".toList, title, "--body".toList, body]
  match labels with
  | Value.str s => base ++ (s.map (fun c => ["--label".toList, [c]])).flatten
  | Value.list items => base ++ (items.map (fun l => ["--label".toList, l])).flatten

/-! ### The converter (convert_md_to_docx.py)

File-system layout is modelled by explicit paths and directory
listings; the observable behaviour of a run is the list of events it
produces (a conversion with its output path, a skip notice for a
non-markdown input, or the no-markdown-files notice). -/

/-- The path separator. -/
def slashCh : Char := '/'

/-- Python str.lower(). -/
def pyLower (s : PyStr) : PyStr := s.map Char.toLower

/-- os.path.basename for slash-separated paths: everything after the
last slash. -/
def basename (p : PyStr) : PyStr :=
  (p.reverse.takeWhile (fun c => decide (c ≠ slashCh))).reverse

/-- Remove trailing slashes. -/
def stripTrailingSlashes (s : PyStr) : PyStr :=
  (s.reverse.dropWhile (fun c => decide (c = slashCh))).reverse

/-- The head normalization of os.path.dirname: an empty head stays
empty, an all-slash head is kept, any other head loses its trailing
slashes. -/
def dirnameAux (head : PyStr) : PyStr :=
  if head = [] then []
  else if head.all (fun c => decide (c = slashCh)) then head
  else stripTrailingSlashes head

/-- os.path.dirname for slash-separated paths: the text up to and
including the last slash, normalized by dirnameAux. -/
def dirname (p : PyStr) : PyStr :=
  dirnameAux ((p.reverse.dropWhile (fun c => decide (c ≠ slashCh))).reverse)

/-- os.path.flatten for two slash-separated components. -/
def pyJoin (a b : PyStr) : PyStr :=
  if b.head? = some slashCh then b
  else if a = [] ∨ a.getLast? = some slashCh then a ++ b
  else a ++ slashCh :: b

/-- os.path.splitext: split off the extension at the last dot of the
final path component, unless every character before that dot in the
component is itself a dot. -/
def splitext (p : PyStr) : PyStr × PyStr :=
  let base := basename p
  let pre := p.take (p.length - base.length)
  let afterDot := base.reverse.takeWhile (fun c => decide (c ≠ '.'))
  if afterDot.length = base.length then (p, [])
  else
    let root := base.take (base.length - afterDot.length - 1)
    if root.all (fun c => decide (c = '.')) then (p, [])
    else (pre ++ root, '.' :: afterDot.reverse)

/-- The markdown extension. -/
def mdSuffix : PyStr := ".md".toList

/-- Observable events of a converter run. -/
inductive ConvEvent where
  | skipNotice : PyStr → ConvEvent
  | convert : PyStr → PyStr → ConvEvent
  | noMdNotice : PyStr → ConvEvent
deriving DecidableEq

/-- convert_file from convert_md_to_docx.py: a path whose lower-cased
form does not end in the markdown extension is skipped with a notice;
otherwise the file is converted into the converted sibling directory
under its base name with the docx extension. -/
def convert_file (p : PyStr) : List ConvEvent :=
  if mdSuffix.isSuffixOf (pyLower p) then
    let directory := dirname p
    let filename := basename p
    let filename_no_ext := (splitext filename).1
    let output_dir := pyJoin directory "converted".toList
    let output_path := pyJoin output_dir (filename_no_ext ++ ".docx".toList)
    [ConvEvent.convert p output_path]
  else [ConvEvent.skipNotice p]

/-- glob of star-dot-md over one directory listing: names ending in
the (case-sensitive) markdown extension, hidden names excluded, joined
onto the directory, in listing order. -/
def globMd (dir : PyStr) (listing : List PyStr) : List PyStr :=
  (listing.filter (fun n => mdSuffix.isSuffixOf n && decide (n.head? ≠ some '.'))).map (pyJoin dir)

/-- The directory branch of process_path from convert_md_to_docx.py:
glob the markdown files of the listing and convert each; with no
matches, only the no-markdown-files notice. -/
def process_dir (path : PyStr) (listing : List PyStr) : List ConvEvent :=
  let md_files := globMd path listing
  if md_files = [] then [ConvEvent.noMdNotice path]
  else (md_files.map convert_file).flatten

/-! ## Lemmas: splitting strings -/

theorem pySplit_cons (sep c : Char) (s : PyStr) :
    pySplit sep (c :: s) = splitStep sep c (pySplit sep s) := rfl

theorem pySplit_ne_nil (sep : Char) (s : PyStr) : pySplit sep s ≠ [] := by
  induction s with
  | nil => simp [pySplit]
  | cons c s ih =>
    rw [pySplit_cons]
    unfold splitStep
    split <;> simp

theorem pySplit_no_sep (sep : Char) (p : PyStr) (h : ∀ c ∈ p, c ≠ sep) :
    pySplit sep p = [p] := by
  induction p with
  | nil => rfl
  | cons c p ih =>
    rw [pySplit_cons, ih (fun d hd => h d (List.mem_cons_of_mem _ hd))]
    simp [splitStep, h c (List.mem_cons_self c p)]

theorem pySplit_append_sep (sep : Char) (p t : PyStr) (h : ∀ c ∈ p, c ≠ sep) :
    pySplit sep (p ++ sep :: t) = p :: pySplit sep t := by
  induction p with
  | nil => simp [pySplit_cons, splitStep]
  | cons c p ih =>
    rw [List.cons_append, pySplit_cons, ih (fun d hd => h d (List.mem_cons_of_mem _ hd))]
    simp [splitStep, h c (List.mem_cons_self c p)]

theorem intersperse_pair {α : Type} (s a b : List α) (t : List (List α)) :
    List.intersperse s (a :: b :: t) = a :: s :: List.intersperse s (b :: t) := rfl

theorem intercalate_one {α : Type} (sep a : List α) :
    List.intercalate sep [a] = a := by
  simp [List.intercalate]

theorem intercalate_two {α : Type} (sep a b : List α) (t : List (List α)) :
    List.intercalate sep (a :: b :: t) = a ++ sep ++ List.intercalate sep (b :: t) := by
  simp [List.intercalate, intersperse_pair]

theorem pySplit_intercalate (sep : Char) (ps : List PyStr) (h0 : ps ≠ [])
    (h : ∀ p ∈ ps, ∀ c ∈ p, c ≠ sep) :
    pySplit sep (List.intercalate [sep] ps) = ps := by
  induction ps with
  | nil => exact absurd rfl h0
  | cons p ps ih =>
    cases ps with
    | nil => rw [intercalate_one]; exact pySplit_no_sep _ _ (h p (List.mem_cons_self _ _))
    | cons q qs =>
      rw [intercalate_two, List.append_assoc, List.singleton_append,
        pySplit_append_sep _ _ _ (h p (List.mem_cons_self _ _)),
        ih (by simp) (fun r hr => h r (List.mem_cons_of_mem _ hr))]

/-! ## Lemmas: locating the closing separator -/

theorem splitAtSep_cons (c : Char) (rest : PyStr) :
    splitAtSep (c :: rest) =
      if sepTok.isPrefixOf (c :: rest) then some ([], rest.drop 4)
      else (splitAtSep rest).map (fun pq => (c :: pq.1, pq.2)) := rfl

theorem splitAtSep_sound {s p q : PyStr} (h : splitAtSep s = some (p, q)) :
    s = p ++ sepTok ++ q := by
  induction s generalizing p q with
  | nil => simp [splitAtSep] at h
  | cons c rest ih =>
    rw [splitAtSep_cons] at h
    by_cases hp : sepTok.isPrefixOf (c :: rest)
    · rw [if_pos hp] at h
      obtain ⟨t, ht⟩ := List.isPrefixOf_iff_prefix.mp hp
      simp only [Option.some.injEq, Prod.mk.injEq] at h
      obtain ⟨h1, h2⟩ := h
      subst h1
      subst h2
      have hcr : c :: rest = sepTok ++ t := ht.symm
      injection hcr with hc hr
      subst hc
      rw [hr]
      rfl
    · rw [if_neg hp] at h
      cases hsp : splitAtSep rest with
      | none => rw [hsp] at h; simp at h
      | some pq =>
        obtain ⟨pre, post⟩ := pq
        rw [hsp] at h
        simp only [Option.map_some', Option.some.injEq, Prod.mk.injEq] at h
        obtain ⟨h1, h2⟩ := h
        subst h2
        rw [← h1, ih hsp]
        rfl

theorem splitAtSep_eq_none_iff (s : PyStr) :
    splitAtSep s = none ↔ hasSubstr sepTok s = false := by
  induction s with
  | nil => decide
  | cons c rest ih =>
    rw [splitAtSep_cons]
    show _ ↔ (sepTok.isPrefixOf (c :: rest) || hasSubstr sepTok rest) = false
    cases hp : sepTok.isPrefixOf (c :: rest) with
    | false => simpa using ih
    | true => simp

theorem matchFrontmatter_append (r : PyStr) :
    matchFrontmatter (openTok ++ r) = splitAtSep r := by
  unfold matchFrontmatter
  rw [if_pos (List.isPrefixOf_iff_prefix.mpr (List.prefix_append _ _)),
    List.drop_left' (by rfl)]

/-! ## C1: absence of the front-matter pattern -/

/-- C1: for every input that is not of the shape opening marker line,
block, closing separator, remainder, parse_frontmatter returns the
empty metadata mapping together with the whole input text unchanged
(and, being a total function, it signals no error on any input). -/
theorem claim_no_frontmatter_returns_input (content : PyStr)
    (h : ¬ ∃ block rest, content = openTok ++ block ++ sepTok ++ rest) :
    parse_frontmatter content = ([], content) := by
  have hm : matchFrontmatter content = none := by
    unfold matchFrontmatter
    by_cases hp : openTok.isPrefixOf content
    · rw [if_pos hp]
      obtain ⟨t, ht⟩ := List.isPrefixOf_iff_prefix.mp hp
      cases hsp : splitAtSep (content.drop 4) with
      | none => rfl
      | some pq =>
        obtain ⟨pre, post⟩ := pq
        have hdrop : content.drop 4 = t := by
          rw [← ht, List.drop_left' (by rfl)]
        rw [hdrop] at hsp
        have hsplit := splitAtSep_sound hsp
        exact absurd ⟨pre, post, by rw [← ht, hsplit]; simp [List.append_assoc]⟩ h
    · rw [if_neg hp]
  simp [parse_frontmatter, hm]

/-- Witness for C1 at a concrete input with no front matter. -/
theorem claim_no_frontmatter_returns_input_witness :
    parse_frontmatter ("no front matter".toList) = ([], "no front matter".toList) :=
  claim_no_frontmatter_returns_input _ (by
    rintro ⟨b, r, hbr⟩
    have h4 : ("no front matter".toList).take 4 = openTok := by
      rw [hbr]; rfl
    exact absurd h4 (by decide))

/-! ## C9: an empty marker pair, and a closing marker at end of file -/

/-- C9 counterexample: on the concrete document whose opening marker
line is immediately followed by the closing marker line but whose
remaining text contains a further separator, the parser does find a
front-matter block, so the body is not the whole input text. -/
theorem claim_empty_block_counterexample :
    parse_frontmatter ("---\n---\nx\n---\ny".toList) = ([], "y".toList) ∧
    ("y".toList : PyStr) ≠ "---\n---\nx\n---\ny".toList := by
  constructor
  · decide
  · decide

/-- C9 (amended): a document whose opening marker line is immediately
followed by the closing marker line, or whose closing marker is the
final text of the file with no newline after it, is treated as having
no front matter — provided the text after the opening marker line
contains no newline, three dashes, newline separator: the parser then
returns the empty mapping and the whole text, marker lines included,
unchanged. -/
theorem claim_empty_block_no_frontmatter :
    (∀ t : PyStr, hasSubstr sepTok (dash3 ++ '\n' :: t) = false →
      parse_frontmatter (openTok ++ (dash3 ++ '\n' :: t)) =
        ([], openTok ++ (dash3 ++ '\n' :: t))) ∧
    (∀ block : PyStr, hasSubstr sepTok (block ++ '\n' :: dash3) = false →
      parse_frontmatter (openTok ++ (block ++ '\n' :: dash3)) =
        ([], openTok ++ (block ++ '\n' :: dash3))) := by
  constructor
  · intro t ht
    have hn : splitAtSep (dash3 ++ '\n' :: t) = none :=
      (splitAtSep_eq_none_iff _).mpr ht
    simp [parse_frontmatter, matchFrontmatter_append, hn]
  · intro block hb
    have hn : splitAtSep (block ++ '\n' :: dash3) = none :=
      (splitAtSep_eq_none_iff _).mpr hb
    simp [parse_frontmatter, matchFrontmatter_append, hn]

/-- Witness for the amended C9 on both shapes. -/
theorem claim_empty_block_witness :
    parse_frontmatter (openTok ++ (dash3 ++ '\n' :: "hello".toList)) =
      ([], openTok ++ (dash3 ++ '\n' :: "hello".toList)) ∧
    parse_frontmatter (openTok ++ ("title: A".toList ++ '\n' :: dash3)) =
      ([], openTok ++ ("title: A".toList ++ '\n' :: dash3)) :=
  ⟨claim_empty_block_no_frontmatter.1 _ (by decide),
   claim_empty_block_no_frontmatter.2 _ (by decide)⟩

/-! ## C7: the duplicate checker fails open -/

/-- C7: any failure of the duplicate-check query yields false (not
found) together with exactly the one warning line, and the check
reports true only when the query genuinely succeeded with an exactly
matching title.  issue_exists is a total function: no failure is
propagated to the caller. -/
theorem claim_issue_exists_fails_open :
    (∀ title e : PyStr,
      issue_exists title (QueryResult.failure e) = (false, [warnMsg e])) ∧
    (∀ (title : PyStr) (q : QueryResult),
      (issue_exists title q).1 = true ↔
        ∃ ts, q = QueryResult.success ts ∧ title ∈ ts) := by
  refine ⟨fun title e => rfl, fun title q => ?_⟩
  cases q with
  | failure e => simp [issue_exists]
  | success ts => simp [issue_exists]

/-! ## C8: a scalar labels value is iterated character by character -/

/-- C8: with a scalar labels value, main's loop iterates the string, so
the command gains one label flag per character — exactly the command
built from the list of that string's one-character pieces; a bracketed
labels value passes its items as whole words.  Both behaviours are
witnessed on parsed documents. -/
theorem claim_scalar_labels_iterate_chars :
    (∀ title body s : PyStr,
      buildIssueCmd title body (Value.str s) =
        buildIssueCmd title body (Value.list (s.map (fun c => [c])))) ∧
    ((parse_frontmatter "---\ntitle: T\nlabels: bug\n---\nBody".toList).1 =
        [("title".toList, Value.str "T".toList),
         ("labels".toList, Value.str "bug".toList)] ∧
      buildIssueCmd "T".toList
          (parse_frontmatter "---\ntitle: T\nlabels: bug\n---\nBody".toList).2
          (getLabels (parse_frontmatter "---\ntitle: T\nlabels: bug\n---\nBody".toList).1) =
        ["gh".toList, "issue".toList, "create".toList, "--title".toList, "T".toList,
         "--body".toList, "Body".toList, "--label".toList, "b".toList,
         "--label".toList, "u".toList, "--label".toList, "g".toList]) ∧
    (buildIssueCmd "T".toList "B".toList
        (getLabels (parse_frontmatter "---\ntitle: T\nlabels: [bug, ux]\n---\nB".toList).1) =
      ["gh".toList, "issue".toList, "create".toList, "--title".toList, "T".toList,
       "--body".toList, "B".toList, "--label".toList, "bug".toList,
       "--label".toList, "ux".toList]) := by
  refine ⟨fun title body s => ?_, by decide, by decide⟩
  simp only [buildIssueCmd, List.map_map]
  rfl

/-! ## Lemmas: stripping -/

theorem pyStrip_all_space (s : PyStr) (h : ∀ c ∈ s, isPySpace c = true) :
    pyStrip s = [] := by
  unfold pyStrip lstrip rstrip
  rw [List.dropWhile_eq_nil_iff.mpr h]
  rfl

/-! ## C10: a whitespace-only bracket interior -/

/-- C10: a bracketed value whose interior is nonempty whitespace parses
to the one-element sequence containing the empty string, while the
literally empty interior parses to the empty sequence; shown in general
and on the concrete values from the claim, including through a parsed
document. -/
theorem claim_whitespace_interior_not_empty :
    (∀ inner : PyStr, inner ≠ [] → (∀ c ∈ inner, isPySpace c = true) →
      parseValue ('[' :: (inner ++ [']'])) = Value.list [[]]) ∧
    parseValue "[ ]".toList = Value.list [[]] ∧
    parseValue "[]".toList = Value.list [] ∧
    (parse_frontmatter "---\nlabels: [ ]\n---\nb".toList).1 =
      [("labels".toList, Value.list [[]])] := by
  refine ⟨fun inner h0 hsp => ?_, by decide, by decide, by decide⟩
  have hhead : ('[' :: (inner ++ [']'])).head? = some '[' := rfl
  have hlast : ('[' :: (inner ++ [']'])).getLast? = some ']' :=
    List.getLast?_concat ('[' :: inner)
  have hdrop : (('[' :: (inner ++ [']'])).drop 1).dropLast = inner := by
    simp
  unfold parseValue
  rw [if_pos ⟨hhead, hlast⟩]
  simp only [hdrop]
  rw [if_neg h0]
  rw [pySplit_no_sep ',' inner (fun c hc hcc => by
    subst hcc
    exact absurd (hsp ',' hc) (by decide))]
  rw [List.map_singleton, pyStrip_all_space inner hsp]
  rfl

/-- Witness for C10 at the one-space interior. -/
theorem claim_whitespace_interior_not_empty_witness :
    parseValue ('[' :: ([' '] ++ [']'])) = Value.list [[]] :=
  claim_whitespace_interior_not_empty.1 [' '] (by decide) (by decide)

/-! ## C5: scalar values -/

/-- C5: a trimmed value that is not bracket-shaped parses as a scalar
with at most one layer of matching surrounding quotes removed: wrapping
any string in one pair of double or single quotes is undone exactly
once (so nested quoting survives, as the doubled-quote instance shows),
and a malformed bracket value missing its closing bracket is a plain
scalar, with no failure. -/
theorem claim_scalar_value_parsing :
    (∀ v : PyStr, ¬(v.head? = some '[' ∧ v.getLast? = some ']') →
      parseValue v = Value.str (stripQuotes v)) ∧
    (∀ s : PyStr, parseValue (dqCh :: (s ++ [dqCh])) = Value.str s) ∧
    (∀ s : PyStr, parseValue (sqCh :: (s ++ [sqCh])) = Value.str s) ∧
    parseValue (dqCh :: dqCh :: ("hi".toList ++ [dqCh, dqCh])) =
      Value.str (dqCh :: ("hi".toList ++ [dqCh])) ∧
    (parse_frontmatter "---\nlabels: [bug\n---\nx".toList).1 =
      [("labels".toList, Value.str "[bug".toList)] := by
  refine ⟨fun v hv => ?_, fun s => ?_, fun s => ?_, by decide, by decide⟩
  · unfold parseValue
    rw [if_neg hv]
  · have hh : (dqCh :: (s ++ [dqCh])).head? = some dqCh := rfl
    have hl : (dqCh :: (s ++ [dqCh])).getLast? = some dqCh :=
      List.getLast?_concat (dqCh :: s)
    unfold parseValue
    rw [if_neg (fun hc => by rw [hh] at hc; exact absurd hc.1 (by decide))]
    unfold stripQuotes
    rw [if_pos (Or.inl ⟨hh, hl⟩)]
    simp
  · have hh : (sqCh :: (s ++ [sqCh])).head? = some sqCh := rfl
    have hl : (sqCh :: (s ++ [sqCh])).getLast? = some sqCh :=
      List.getLast?_concat (sqCh :: s)
    unfold parseValue
    rw [if_neg (fun hc => by rw [hh] at hc; exact absurd hc.1 (by decide))]
    unfold stripQuotes
    rw [if_pos (Or.inr ⟨hh, hl⟩)]
    simp

/-- Witness for C5: an unquoted, unbracketed scalar is kept as-is, and
one quote layer is removed from a quoted one. -/
theorem claim_scalar_value_parsing_witness :
    parseValue ("hello".toList) = Value.str (stripQuotes "hello".toList) ∧
    parseValue (dqCh :: ("hello".toList ++ [dqCh])) = Value.str "hello".toList :=
  ⟨claim_scalar_value_parsing.1 "hello".toList (by decide),
   claim_scalar_value_parsing.2.1 "hello".toList⟩

/-! ## C4: bracketed list values -/

/-- C4: a bracketed value is parsed by stripping the brackets, splitting
the interior on commas, trimming each piece and removing one layer of
matching quotes from it, in order; the concrete quoted triple parses to
its three items in order, and the empty brackets parse to the empty
sequence. -/
theorem claim_bracketed_value_list :
    (∀ ps : List PyStr, ps ≠ [] → List.intercalate [','] ps ≠ [] →
      (∀ p ∈ ps, ∀ c ∈ p, c ≠ ',') →
      parseValue ('[' :: (List.intercalate [','] ps ++ [']'])) =
        Value.list (ps.map (fun p => stripQuotes (pyStrip p)))) ∧
    (parse_frontmatter ("---\nlabels: [\"a\", \"b\", \"c\"]\n---\nx".toList)).1 =
      [("labels".toList, Value.list ["a".toList, "b".toList, "c".toList])] ∧
    parseValue "[]".toList = Value.list [] := by
  refine ⟨fun ps h0 hne hc => ?_, by decide, by decide⟩
  have hhead : ('[' :: (List.intercalate [','] ps ++ [']'])).head? = some '[' := rfl
  have hlast : ('[' :: (List.intercalate [','] ps ++ [']'])).getLast? = some ']' :=
    List.getLast?_concat ('[' :: List.intercalate [','] ps)
  have hdrop : (('[' :: (List.intercalate [','] ps ++ [']'])).drop 1).dropLast =
      List.intercalate [','] ps := by
    simp
  unfold parseValue
  rw [if_pos ⟨hhead, hlast⟩]
  simp only [hdrop]
  rw [if_neg hne, pySplit_intercalate ',' ps h0 hc]

/-- Witness for C4 at a two-item unquoted list. -/
theorem claim_bracketed_value_list_witness :
    parseValue ('[' :: (List.intercalate [','] ["a".toList, "b".toList] ++ [']'])) =
      Value.list (["a".toList, "b".toList].map (fun p => stripQuotes (pyStrip p))) :=
  claim_bracketed_value_list.1 ["a".toList, "b".toList] (by decide) (by decide) (by decide)

/-! ## Lemmas: the metadata dictionary -/

theorem dictGet_cons (p : PyStr × Value) (rest : Dict) (k : PyStr) :
    dictGet (p :: rest) k = if p.1 = k then some p.2 else dictGet rest k := by
  obtain ⟨k2, v2⟩ := p
  rfl

theorem dictGet_map_overwrite (m : Dict) (k : PyStr) (v : Value)
    (h : m.any (fun p => decide (p.1 = k)) = true) :
    dictGet (m.map (fun p => if p.1 = k then (k, v) else p)) k = some v := by
  induction m with
  | nil => simp at h
  | cons p rest ih =>
    rw [List.map_cons, dictGet_cons]
    by_cases hp : p.1 = k
    · rw [if_pos hp]
      simp
    · rw [if_neg hp, if_neg hp]
      apply ih
      rw [List.any_cons, decide_eq_false hp, Bool.false_or] at h
      exact h

theorem dictGet_append_single (m : Dict) (k : PyStr) (v : Value)
    (h : ∀ p ∈ m, p.1 ≠ k) : dictGet (m ++ [(k, v)]) k = some v := by
  induction m with
  | nil => simp [dictGet_cons]
  | cons p rest ih =>
    rw [List.cons_append, dictGet_cons, if_neg (h p (List.mem_cons_self _ _))]
    exact ih (fun q hq => h q (List.mem_cons_of_mem _ hq))

theorem dictGet_dictInsert_self (m : Dict) (k : PyStr) (v : Value) :
    dictGet (dictInsert k v m) k = some v := by
  unfold dictInsert
  by_cases hmem : m.any (fun p => decide (p.1 = k)) = true
  · rw [if_pos hmem]
    exact dictGet_map_overwrite m k v hmem
  · rw [if_neg hmem]
    refine dictGet_append_single m k v (fun p hp hpk => ?_)
    exact hmem (List.any_eq_true.mpr ⟨p, hp, by simp [hpk]⟩)

theorem dictGet_map_ne (m : Dict) (k k1 : PyStr) (v : Value) (h : k1 ≠ k) :
    dictGet (m.map (fun p => if p.1 = k1 then (k1, v) else p)) k = dictGet m k := by
  induction m with
  | nil => rfl
  | cons p rest ih =>
    rw [List.map_cons, dictGet_cons, dictGet_cons]
    by_cases hp : p.1 = k1
    · rw [if_pos hp, if_neg (show ¬((k1, v).1 = k) from h),
        if_neg (show ¬(p.1 = k) by rw [hp]; exact h)]
      exact ih
    · rw [if_neg hp]
      by_cases hpk : p.1 = k
      · rw [if_pos hpk, if_pos hpk]
      · rw [if_neg hpk, if_neg hpk]
        exact ih

theorem dictGet_append_single_ne (m : Dict) (k k1 : PyStr) (v : Value) (h : k1 ≠ k) :
    dictGet (m ++ [(k1, v)]) k = dictGet m k := by
  induction m with
  | nil => simp [dictGet_cons, h, dictGet]
  | cons p rest ih =>
    rw [List.cons_append, dictGet_cons, dictGet_cons]
    by_cases hpk : p.1 = k
    · rw [if_pos hpk, if_pos hpk]
    · rw [if_neg hpk, if_neg hpk]
      exact ih

theorem dictGet_dictInsert_ne (m : Dict) (k k1 : PyStr) (v : Value) (h : k1 ≠ k) :
    dictGet (dictInsert k1 v m) k = dictGet m k := by
  unfold dictInsert
  by_cases hmem : m.any (fun p => decide (p.1 = k1)) = true
  · rw [if_pos hmem]
    exact dictGet_map_ne m k k1 v h
  · rw [if_neg hmem]
    exact dictGet_append_single_ne m k k1 v h

theorem nodupKeys_dictInsert (m : Dict) (k : PyStr) (v : Value)
    (h : (m.map Prod.fst).Nodup) :
    ((dictInsert k v m).map Prod.fst).Nodup := by
  unfold dictInsert
  by_cases hmem : m.any (fun p => decide (p.1 = k)) = true
  · rw [if_pos hmem]
    have hkeys : (m.map (fun p => if p.1 = k then (k, v) else p)).map Prod.fst =
        m.map Prod.fst := by
      rw [List.map_map]
      refine List.map_congr_left (fun p _ => ?_)
      by_cases hpk : p.1 = k
      · simp [hpk]
      · simp [hpk]
    rw [hkeys]
    exact h
  · rw [if_neg hmem, List.map_append]
    have hk : k ∉ m.map Prod.fst := by
      intro hkm
      obtain ⟨p, hp, hpk⟩ := List.mem_map.mp hkm
      exact hmem (List.any_eq_true.mpr ⟨p, hp, by simp [hpk]⟩)
    simp [List.nodup_append, h, hk]

theorem nodupKeys_foldl (lines : List PyStr) (acc : Dict)
    (h : (acc.map Prod.fst).Nodup) :
    (((lines.foldl processLine acc)).map Prod.fst).Nodup := by
  induction lines generalizing acc with
  | nil => exact h
  | cons l ls ih =>
    rw [List.foldl_cons]
    refine ih _ ?_
    unfold processLine
    cases hkv : lineKV l with
    | none => exact h
    | some kv =>
      obtain ⟨k1, v1⟩ := kv
      exact nodupKeys_dictInsert _ _ _ h

theorem dictGet_foldl_lines (lines : List PyStr) (acc : Dict) (k : PyStr) :
    dictGet (lines.foldl processLine acc) k =
      (((lines.filterMap lineKV).reverse.find?
          (fun p => decide (p.1 = k))).map Prod.snd).or (dictGet acc k) := by
  induction lines generalizing acc with
  | nil => simp
  | cons l ls ih =>
    rw [List.foldl_cons, ih]
    cases hkv : lineKV l with
    | none =>
      rw [List.filterMap_cons]
      rw [hkv]
      unfold processLine
      rw [hkv]
    | some kv =>
      obtain ⟨k1, v1⟩ := kv
      rw [List.filterMap_cons, hkv]
      unfold processLine
      rw [hkv]
      rw [List.reverse_cons, List.find?_append]
      by_cases hk : k1 = k
      · subst hk
        cases hf : (ls.filterMap lineKV).reverse.find? (fun p => decide (p.1 = k1)) with
        | none => simp [hf, dictGet_dictInsert_self]
        | some p0 => simp [hf]
      · cases hf : (ls.filterMap lineKV).reverse.find? (fun p => decide (p.1 = k)) with
        | none => simp [hf, hk, dictGet_dictInsert_ne _ _ _ _ hk]
        | some p0 => simp [hf]

/-! ## C6: duplicate keys, last occurrence wins -/

/-- C6: the parsed metadata mapping always has pairwise distinct keys
(exactly one entry per key); in general the value found for a key after
the parsing fold is the one of the last block line that parses to that
key; and the concrete duplicate-title document keeps only the later
value. -/
theorem claim_duplicate_key_last_wins :
    (∀ content : PyStr, (((parse_frontmatter content).1).map Prod.fst).Nodup) ∧
    (∀ (lines : List PyStr) (k : PyStr),
      dictGet (lines.foldl processLine []) k =
        ((lines.filterMap lineKV).reverse.find?
          (fun p => decide (p.1 = k))).map Prod.snd) ∧
    (parse_frontmatter "---\ntitle: A\ntitle: B\n---\nx".toList).1 =
      [("title".toList, Value.str "B".toList)] := by
  refine ⟨fun content => ?_, fun lines k => ?_, by decide⟩
  · unfold parse_frontmatter
    cases hm : matchFrontmatter content with
    | none => simp
    | some rr =>
      obtain ⟨raw, rest⟩ := rr
      exact nodupKeys_foldl _ _ (by simp)
  · rw [dictGet_foldl_lines]
    show _ = _
    rw [show dictGet [] k = none from rfl, Option.or_none]

/-! ## Lemmas: paths -/

theorem takeWhile_all (p : Char → Bool) (l : PyStr) (h : ∀ a ∈ l, p a = true) :
    l.takeWhile p = l := by
  induction l with
  | nil => rfl
  | cons x xs ih =>
    rw [List.takeWhile_cons_of_pos (h x (List.mem_cons_self _ _)),
      ih (fun a ha => h a (List.mem_cons_of_mem _ ha))]

theorem head?_append_left (s t : PyStr) (h : s ≠ []) :
    (s ++ t).head? = s.head? := by
  cases s with
  | nil => exact absurd rfl h
  | cons x l => rfl

theorem head?_ne_of_not_mem {s : PyStr} {c : Char} (h : c ∉ s) :
    s.head? ≠ some c := by
  cases s with
  | nil => simp
  | cons x l =>
    rw [List.head?_cons]
    intro hx
    rw [Option.some.injEq] at hx
    subst hx
    exact h (List.mem_cons_self _ _)

theorem pyJoin_normal (x y : PyStr) (hx0 : x ≠ []) (hx1 : x.getLast? ≠ some slashCh)
    (hy : y.head? ≠ some slashCh) : pyJoin x y = x ++ slashCh :: y := by
  unfold pyJoin
  rw [if_neg hy, if_neg (fun h => h.elim hx0 hx1)]

theorem basename_no_slash (s : PyStr) (h : slashCh ∉ s) : basename s = s := by
  unfold basename
  rw [takeWhile_all _ _ (fun a ha => by
    simp only [decide_eq_true_eq]
    intro hc
    subst hc
    exact h (List.mem_reverse.mp ha)), List.reverse_reverse]

theorem basename_join (x n : PyStr) (h : slashCh ∉ n) :
    basename (x ++ slashCh :: n) = n := by
  unfold basename
  rw [List.reverse_append, List.reverse_cons, List.append_assoc,
    List.takeWhile_append_of_pos (fun a ha => by
      simp only [decide_eq_true_eq]
      intro hc
      subst hc
      exact h (List.mem_reverse.mp ha)),
    List.singleton_append, List.takeWhile_cons_of_neg (by simp), List.append_nil,
    List.reverse_reverse]

theorem dirname_join (x n : PyStr) (hx0 : x ≠ []) (hx1 : x.getLast? ≠ some slashCh)
    (h : slashCh ∉ n) : dirname (x ++ slashCh :: n) = x := by
  rcases List.eq_nil_or_concat x with rfl | ⟨d, c, rfl⟩
  · exact absurd rfl hx0
  · rw [List.concat_eq_append] at hx1 ⊢
    have hc : c ≠ slashCh := by
      rw [List.getLast?_concat] at hx1
      intro hcc
      exact hx1 (by rw [hcc])
    have h1 : ((d ++ [c]) ++ slashCh :: n).reverse =
        n.reverse ++ (slashCh :: (c :: d.reverse)) := by
      simp
    have h2 : ((d ++ [c]) ++ slashCh :: n).reverse.dropWhile
        (fun c2 => decide (c2 ≠ slashCh)) = slashCh :: c :: d.reverse := by
      rw [h1, List.dropWhile_append_of_pos (fun a ha => by
        simp only [decide_eq_true_eq]
        intro hcc
        subst hcc
        exact h (List.mem_reverse.mp ha)),
        List.dropWhile_cons_of_neg (by simp)]
    have hall : ¬(((d ++ [c]) ++ [slashCh]).all (fun c2 => decide (c2 = slashCh)) = true) := by
      intro hall
      have := List.all_eq_true.mp hall c (by simp)
      rw [decide_eq_true_eq] at this
      exact hc this
    unfold dirname
    rw [h2]
    have h3 : (slashCh :: c :: d.reverse).reverse = (d ++ [c]) ++ [slashCh] := by
      simp
    rw [h3]
    unfold dirnameAux
    rw [if_neg (by simp), if_neg hall]
    unfold stripTrailingSlashes
    have h4 : ((d ++ [c]) ++ [slashCh]).reverse = slashCh :: c :: d.reverse := by
      simp
    rw [h4, List.dropWhile_cons_of_pos (by simp),
      List.dropWhile_cons_of_neg (by simp [hc])]
    simp

theorem splitext_md (a : PyStr) (ha0 : a ≠ []) (ha2 : a.head? ≠ some '.')
    (ha1 : slashCh ∉ a) : splitext (a ++ mdSuffix) = (a, mdSuffix) := by
  have hbase : basename (a ++ mdSuffix) = a ++ mdSuffix := basename_no_slash _ (by
    intro hmem
    rcases List.mem_append.mp hmem with hm | hm
    · exact ha1 hm
    · exact absurd hm (by decide))
  have hrev : (a ++ mdSuffix).reverse = 'd' :: 'm' :: '.' :: a.reverse := by
    rw [List.reverse_append]
    rfl
  have hafter : (a ++ mdSuffix).reverse.takeWhile (fun c => decide (c ≠ '.')) =
      ['d', 'm'] := by
    rw [hrev, List.takeWhile_cons_of_pos (by decide), List.takeWhile_cons_of_pos (by decide),
      List.takeWhile_cons_of_neg (by decide)]
  have hlen : ¬((['d', 'm'] : PyStr).length = (a ++ mdSuffix).length) := by
    rw [List.length_append]
    show ¬(2 = a.length + 3)
    omega
  have htake : (a ++ mdSuffix).take ((a ++ mdSuffix).length - (['d', 'm'] : PyStr).length - 1) =
      a := by
    refine List.take_left' ?_
    rw [List.length_append]
    show a.length = a.length + 3 - 2 - 1
    omega
  have hall : ¬(a.all (fun c => decide (c = '.')) = true) := by
    cases a with
    | nil => exact absurd rfl ha0
    | cons x l =>
      intro hx
      have := List.all_eq_true.mp hx x (List.mem_cons_self _ _)
      rw [decide_eq_true_eq] at this
      subst this
      exact ha2 rfl
  simp only [splitext]
  rw [hbase, hafter, if_neg hlen, htake, if_neg hall, Nat.sub_self, List.take_zero,
    List.nil_append]
  rfl

theorem lower_md_suffix (x a : PyStr) :
    mdSuffix.isSuffixOf (pyLower (x ++ slashCh :: (a ++ mdSuffix))) = true := by
  have hlow : pyLower (x ++ slashCh :: (a ++ mdSuffix)) =
      (pyLower x ++ slashCh :: pyLower a) ++ mdSuffix := by
    unfold pyLower
    rw [List.map_append, List.map_cons, List.map_append]
    rw [show Char.toLower slashCh = slashCh from by decide,
      show mdSuffix.map Char.toLower = mdSuffix from by decide]
    simp
  rw [hlow]
  simp only [List.isSuffixOf_iff_suffix]
  exact List.suffix_append _ _

/-! ## C3: a directory with one markdown and one text file -/

/-- C3 counterexample: on the concrete directory with one markdown file
and one text file, the run consists of exactly the one conversion — no
skip notice for the text file is produced (the directory branch globs
markdown files only, so the text file is silently ignored). -/
theorem claim_converter_dir_counterexample :
    process_dir ("docs".toList) ["a.md".toList, "b.txt".toList] =
      [ConvEvent.convert "docs/a.md".toList "docs/converted/a.docx".toList] ∧
    ConvEvent.skipNotice ("docs/b.txt".toList) ∉
      process_dir ("docs".toList) ["a.md".toList, "b.txt".toList] ∧
    ConvEvent.skipNotice ("b.txt".toList) ∉
      process_dir ("docs".toList) ["a.md".toList, "b.txt".toList] := by
  refine ⟨by decide, by decide, by decide⟩

/-- C3 (amended): for a directory listing one markdown file and one
non-markdown file, the converter produces exactly one conversion, named
after the markdown file's base name with the docx extension, inside the
converted subdirectory of that directory; the non-markdown file is
silently ignored — it is not reported as skipped, since the directory
branch enumerates markdown files only (the skip notice exists only for
a non-markdown path passed directly). -/
theorem claim_converter_dir_one_md (d a b : PyStr)
    (hd0 : d ≠ []) (hd1 : d.getLast? ≠ some slashCh)
    (ha0 : a ≠ []) (ha1 : slashCh ∉ a) (ha2 : a.head? ≠ some '.')
    (hb : mdSuffix.isSuffixOf b = false) :
    process_dir d [a ++ mdSuffix, b] =
      [ConvEvent.convert (d ++ slashCh :: (a ++ mdSuffix))
        (d ++ slashCh :: ("converted".toList ++ slashCh :: (a ++ ".docx".toList)))] := by
  have hnm : slashCh ∉ a ++ mdSuffix := by
    intro hmem
    rcases List.mem_append.mp hmem with hm | hm
    · exact ha1 hm
    · exact absurd hm (by decide)
  have hfa : (mdSuffix.isSuffixOf (a ++ mdSuffix) &&
      decide ((a ++ mdSuffix).head? ≠ some '.')) = true := by
    have h1 : mdSuffix.isSuffixOf (a ++ mdSuffix) = true := by
      simp only [List.isSuffixOf_iff_suffix]
      exact List.suffix_append _ _
    have h2 : decide ((a ++ mdSuffix).head? ≠ some '.') = true := by
      rw [head?_append_left _ _ ha0]
      exact decide_eq_true ha2
    rw [h1, h2]
    rfl
  have hfb : (mdSuffix.isSuffixOf b && decide (b.head? ≠ some '.')) = false := by
    rw [hb]
    rfl
  have hglob : globMd d [a ++ mdSuffix, b] = [pyJoin d (a ++ mdSuffix)] := by
    unfold globMd
    rw [List.filter_cons, List.filter_cons]
    simp only [hfa, hfb, List.filter_nil, if_true, if_false]
    rfl
  have hjoin : pyJoin d (a ++ mdSuffix) = d ++ slashCh :: (a ++ mdSuffix) :=
    pyJoin_normal _ _ hd0 hd1 (by
      rw [head?_append_left _ _ ha0]
      exact head?_ne_of_not_mem ha1)
  have hdir : dirname (d ++ slashCh :: (a ++ mdSuffix)) = d :=
    dirname_join d _ hd0 hd1 hnm
  have hbase : basename (d ++ slashCh :: (a ++ mdSuffix)) = a ++ mdSuffix :=
    basename_join d _ hnm
  have hsplit : splitext (a ++ mdSuffix) = (a, mdSuffix) := splitext_md a ha0 ha2 ha1
  have hodir : pyJoin d ("converted".toList) = d ++ slashCh :: "converted".toList :=
    pyJoin_normal _ _ hd0 hd1 (by decide)
  have hopath : pyJoin (d ++ slashCh :: "converted".toList) (a ++ ".docx".toList) =
      (d ++ slashCh :: "converted".toList) ++ slashCh :: (a ++ ".docx".toList) :=
    pyJoin_normal _ _ (by simp)
      (by
        rw [List.getLast?_append]
        show Option.or (some 'd') d.getLast? ≠ some slashCh
        rw [Option.or_some]
        decide)
      (by rw [head?_append_left _ _ ha0]; exact head?_ne_of_not_mem ha1)
  have hconv : convert_file (d ++ slashCh :: (a ++ mdSuffix)) =
      [ConvEvent.convert (d ++ slashCh :: (a ++ mdSuffix))
        (d ++ slashCh :: ("converted".toList ++ slashCh :: (a ++ ".docx".toList)))] := by
    simp only [convert_file]
    rw [if_pos (lower_md_suffix d a), hdir, hbase, hsplit]
    simp only [hodir]
    rw [hopath]
    simp
  simp only [process_dir]
  rw [hglob, if_neg (by simp), hjoin]
  simp [hconv]

/-- Witness for the amended C3 at a concrete directory. -/
theorem claim_converter_dir_one_md_witness :
    process_dir ("docs".toList) ["a".toList ++ mdSuffix, "b.txt".toList] =
      [ConvEvent.convert ("docs".toList ++ slashCh :: ("a".toList ++ mdSuffix))
        ("docs".toList ++ slashCh ::
          ("converted".toList ++ slashCh :: ("a".toList ++ ".docx".toList)))] :=
  claim_converter_dir_one_md _ _ _ (by decide) (by decide) (by decide) (by decide)
    (by decide) (by decide)

/-! ## Lemmas: stripping around non-whitespace ends -/

theorem lstrip_cons_nonspace (c : Char) (s : PyStr) (h : isPySpace c = false) :
    lstrip (c :: s) = c :: s :=
  List.dropWhile_cons_of_neg (by simp [h])

theorem lstrip_cons_space (c : Char) (s : PyStr) (h : isPySpace c = true) :
    lstrip (c :: s) = lstrip s :=
  List.dropWhile_cons_of_pos h

theorem rstrip_concat_nonspace (s : PyStr) (c : Char) (h : isPySpace c = false) :
    rstrip (s ++ [c]) = s ++ [c] := by
  unfold rstrip
  have h1 : (s ++ [c]).reverse = c :: s.reverse := by simp
  rw [h1, List.dropWhile_cons_of_neg (by simp [h])]
  simp

theorem lstrip_head (x : Char) (s : PyStr) (h : lstrip (x :: s) = x :: s) :
    isPySpace x = false := by
  by_contra hx
  rw [Bool.not_eq_false] at hx
  unfold lstrip at h
  rw [List.dropWhile_cons_of_pos hx] at h
  have hsub : List.Sublist (List.dropWhile isPySpace s) s := List.dropWhile_sublist isPySpace
  rw [h] at hsub
  have := hsub.length_le
  simp at this

theorem rstrip_last (t : PyStr) (c : Char) (h : rstrip (t ++ [c]) = t ++ [c]) :
    isPySpace c = false := by
  by_contra hc
  rw [Bool.not_eq_false] at hc
  unfold rstrip at h
  have h1 : (t ++ [c]).reverse = c :: t.reverse := by simp
  rw [h1, List.dropWhile_cons_of_pos hc] at h
  have hsub : List.Sublist (List.dropWhile isPySpace t.reverse) t.reverse :=
    List.dropWhile_sublist isPySpace
  have hlen := congrArg List.length h
  have hle := hsub.length_le
  simp at hlen hle
  omega

/-! ## Lemmas: quoted items round-trip -/

theorem pyStrip_quoted (i : PyStr) :
    pyStrip (dqCh :: (i ++ [dqCh])) = dqCh :: (i ++ [dqCh]) := by
  unfold pyStrip
  rw [lstrip_cons_nonspace _ _ (by decide)]
  show rstrip ((dqCh :: i) ++ [dqCh]) = _
  rw [rstrip_concat_nonspace _ _ (by decide)]
  rfl

theorem stripQuotes_quoted (i : PyStr) :
    stripQuotes (dqCh :: (i ++ [dqCh])) = i := by
  unfold stripQuotes
  rw [if_pos (Or.inl ⟨rfl, List.getLast?_concat (dqCh :: i)⟩)]
  simp

theorem item_piece_head (i : PyStr) :
    stripQuotes (pyStrip (dqCh :: (i ++ [dqCh]))) = i := by
  rw [pyStrip_quoted, stripQuotes_quoted]

theorem item_piece_tail (i : PyStr) :
    stripQuotes (pyStrip (' ' :: dqCh :: (i ++ [dqCh]))) = i := by
  unfold pyStrip
  rw [lstrip_cons_space _ _ (by decide), lstrip_cons_nonspace _ _ (by decide)]
  show stripQuotes (rstrip ((dqCh :: i) ++ [dqCh])) = i
  rw [rstrip_concat_nonspace _ _ (by decide)]
  exact stripQuotes_quoted i

theorem intercalate_cons_ne_nil (sep : PyStr) (q0 : PyStr) (qs : List PyStr)
    (h : q0 ≠ []) : List.intercalate sep (q0 :: qs) ≠ [] := by
  cases qs with
  | nil => rw [intercalate_one]; exact h
  | cons q1 qs2 =>
    rw [intercalate_two]
    simp [h]

theorem pySplit_comma_space (qs : List PyStr) (q0 : PyStr)
    (h : ∀ q ∈ q0 :: qs, ∀ c ∈ q, c ≠ ',') :
    pySplit ',' (List.intercalate [',', ' '] (q0 :: qs)) =
      q0 :: qs.map (fun q => ' ' :: q) := by
  induction qs generalizing q0 with
  | nil =>
    rw [intercalate_one]
    exact pySplit_no_sep ',' q0 (h q0 (List.mem_cons_self _ _))
  | cons q1 qs2 ih =>
    rw [intercalate_two]
    have hre : q0 ++ [',', ' '] ++ List.intercalate [',', ' '] (q1 :: qs2) =
        q0 ++ ',' :: (' ' :: List.intercalate [',', ' '] (q1 :: qs2)) := by
      simp
    rw [hre, pySplit_append_sep ',' q0 _ (h q0 (List.mem_cons_self _ _)),
      pySplit_cons, ih q1 (fun q hq => h q (List.mem_cons_of_mem _ hq))]
    simp [splitStep]

/-! ## Lemmas: parsing a re-serialized value -/

theorem parseValue_wfScalar (v : PyStr) (h : WfScalar v) :
    parseValue v = Value.str v := by
  obtain ⟨-, -, -, hbr, hdq, hsq⟩ := h
  unfold parseValue
  rw [if_neg hbr]
  unfold stripQuotes
  rw [if_neg (fun hor => hor.elim hdq hsq)]

theorem parseValue_serializeList (items : List PyStr) (h : ∀ i ∈ items, WfItem i) :
    parseValue (serializeValue (Value.list items)) = Value.list items := by
  cases items with
  | nil => decide
  | cons i rest =>
    show parseValue ('[' :: (List.intercalate [',', ' ']
      ((i :: rest).map (fun j => dqCh :: (j ++ [dqCh]))) ++ [']'])) = _
    rw [List.map_cons]
    generalize hX : List.intercalate [',', ' ']
      ((dqCh :: (i ++ [dqCh])) :: rest.map (fun j => dqCh :: (j ++ [dqCh]))) = X
    have hhead : ('[' :: (X ++ [']'])).head? = some '[' := rfl
    have hlast : ('[' :: (X ++ [']'])).getLast? = some ']' := by
      show (('[' :: X) ++ [']']).getLast? = some ']'
      exact List.getLast?_concat _
    unfold parseValue
    rw [if_pos ⟨hhead, hlast⟩]
    have hdrop : (('[' :: (X ++ [']'])).drop 1).dropLast = X := by simp
    simp only [hdrop]
    have hne : X ≠ [] := by
      rw [← hX]
      exact intercalate_cons_ne_nil _ _ _ (by simp)
    rw [if_neg hne]
    have hinner : ∀ j ∈ i :: rest, ∀ c ∈ dqCh :: (j ++ [dqCh]), c ≠ ',' := by
      intro j hj c hc
      rcases List.mem_cons.mp hc with rfl | hc2
      · decide
      · rcases List.mem_append.mp hc2 with hm | hm
        · exact fun hcc => (h j hj).1 (hcc ▸ hm)
        · rw [List.mem_singleton] at hm
          subst hm
          decide
    have hq : ∀ q ∈ (dqCh :: (i ++ [dqCh])) :: rest.map (fun j => dqCh :: (j ++ [dqCh])),
        ∀ c ∈ q, c ≠ ',' := by
      intro q hqm
      rcases List.mem_cons.mp hqm with rfl | hqm2
      · exact hinner i (List.mem_cons_self _ _)
      · obtain ⟨j, hj, rfl⟩ := List.mem_map.mp hqm2
        exact hinner j (List.mem_cons_of_mem _ hj)
    rw [← hX, pySplit_comma_space _ _ hq, List.map_cons, item_piece_head, List.map_map,
      List.map_map]
    have hrest : rest.map ((((fun part => stripQuotes (pyStrip part)) ∘ fun q => ' ' :: q) ∘
        fun j : PyStr => dqCh :: (j ++ [dqCh]))) = rest :=
      (List.map_congr_left (fun j _ => item_piece_tail j)).trans (List.map_id rest)
    rw [hrest]

/-! ## Lemmas: parsing a re-serialized line -/

theorem takeWhile_no_colon (k r : PyStr) (h : ':' ∉ k) :
    (k ++ ':' :: r).takeWhile (fun c => decide (c ≠ ':')) = k := by
  rw [List.takeWhile_append_of_pos (fun a ha => by
      simp only [decide_eq_true_eq]
      intro hc
      subst hc
      exact h ha),
    List.takeWhile_cons_of_neg (by simp), List.append_nil]

theorem dropWhile_no_colon (k r : PyStr) (h : ':' ∉ k) :
    (k ++ ':' :: r).dropWhile (fun c => decide (c ≠ ':')) = ':' :: r := by
  rw [List.dropWhile_append_of_pos (fun a ha => by
      simp only [decide_eq_true_eq]
      intro hc
      subst hc
      exact h ha),
    List.dropWhile_cons_of_neg (by simp)]

theorem lstrip_append_colon (k r : PyStr) (h : lstrip k = k) :
    lstrip (k ++ ':' :: r) = k ++ ':' :: r := by
  cases k with
  | nil => exact lstrip_cons_nonspace ':' r (by decide)
  | cons x k2 =>
    have hx : isPySpace x = false := lstrip_head x k2 h
    exact lstrip_cons_nonspace x (k2 ++ ':' :: r) hx

theorem lineKV_key_value (k sv : PyStr) (hk1 : lstrip k = k) (hk2 : rstrip k = k)
    (hk3 : ':' ∉ k) (hsv1 : lstrip sv = sv) (hsv2 : rstrip sv = sv) :
    lineKV (k ++ ':' :: ' ' :: sv) = some (k, parseValue sv) := by
  have hkstrip : pyStrip k = k := by
    unfold pyStrip
    rw [hk1, hk2]
  rcases List.eq_nil_or_concat sv with rfl | ⟨t, c, rfl⟩
  · have hstrip : pyStrip (k ++ ':' :: ' ' :: []) = k ++ ':' :: [] := by
      unfold pyStrip
      rw [lstrip_append_colon k _ hk1]
      unfold rstrip
      have h1 : (k ++ ':' :: ' ' :: []).reverse = ' ' :: ':' :: k.reverse := by simp
      rw [h1, List.dropWhile_cons_of_pos (by decide), List.dropWhile_cons_of_neg (by decide)]
      simp
    simp only [lineKV]
    rw [hstrip, if_neg (by simp), if_pos (List.mem_append_right _ (List.mem_cons_self _ _)),
      takeWhile_no_colon k _ hk3, dropWhile_no_colon k _ hk3, hkstrip]
    rfl
  · rw [List.concat_eq_append]
    have hc : isPySpace c = false := rstrip_last t c (by rwa [List.concat_eq_append] at hsv2)
    have hline : (k ++ ':' :: ' ' :: (t ++ [c])) = (k ++ ':' :: ' ' :: t) ++ [c] := by simp
    have hstrip : pyStrip (k ++ ':' :: ' ' :: (t ++ [c])) = k ++ ':' :: ' ' :: (t ++ [c]) := by
      unfold pyStrip
      rw [lstrip_append_colon k _ hk1, hline, rstrip_concat_nonspace _ _ hc, ← hline]
    simp only [lineKV]
    rw [hstrip, if_neg (by simp), if_pos (List.mem_append_right _ (List.mem_cons_self _ _)),
      takeWhile_no_colon k _ hk3, dropWhile_no_colon k _ hk3, hkstrip]
    show some (k, parseValue (pyStrip (' ' :: (t ++ [c])))) = _
    have hval : pyStrip (' ' :: (t ++ [c])) = t ++ [c] := by
      unfold pyStrip
      rw [lstrip_cons_space _ _ (by decide)]
      rw [show lstrip (t ++ [c]) = t ++ [c] from by rwa [List.concat_eq_append] at hsv1]
      rwa [List.concat_eq_append] at hsv2
    rw [hval]

theorem serializeValue_stripped (v : Value) (hv : WfValue v) :
    lstrip (serializeValue v) = serializeValue v ∧
      rstrip (serializeValue v) = serializeValue v := by
  cases v with
  | str s => exact ⟨hv.1, hv.2.1⟩
  | list items =>
    constructor
    · exact lstrip_cons_nonspace _ _ (by decide)
    · show rstrip (('[' :: List.intercalate [',', ' ']
        (items.map (fun i => dqCh :: (i ++ [dqCh])))) ++ [']']) = _
      rw [rstrip_concat_nonspace _ _ (by decide)]
      rfl

theorem lineKV_serialized (k : PyStr) (v : Value) (hk : WfKey k) (hv : WfValue v) :
    lineKV (serializeEntry (k, v)) = some (k, v) := by
  obtain ⟨hsl, hsr⟩ := serializeValue_stripped v hv
  have hpv : parseValue (serializeValue v) = v := by
    cases v with
    | str s => exact parseValue_wfScalar s hv
    | list items => exact parseValue_serializeList items hv
  rw [show serializeEntry (k, v) = k ++ ':' :: ' ' :: serializeValue v from rfl,
    lineKV_key_value k (serializeValue v) hk.1 hk.2.1 hk.2.2.1 hsl hsr, hpv]

/-! ## Lemmas: the joined block contains no early separator -/

theorem mem_intercalate {c : Char} (sep : PyStr) (qs : List PyStr)
    (h : c ∈ List.intercalate sep qs) : c ∈ sep ∨ ∃ q ∈ qs, c ∈ q := by
  induction qs with
  | nil => simp [List.intercalate] at h
  | cons q qs2 ih =>
    cases qs2 with
    | nil =>
      rw [intercalate_one] at h
      exact Or.inr ⟨q, List.mem_cons_self _ _, h⟩
    | cons q2 qs3 =>
      rw [intercalate_two] at h
      rcases List.mem_append.mp h with h1 | h1
      · rcases List.mem_append.mp h1 with h2 | h2
        · exact Or.inr ⟨q, List.mem_cons_self _ _, h2⟩
        · exact Or.inl h2
      · rcases ih h1 with h2 | ⟨q3, hq3, hc3⟩
        · exact Or.inl h2
        · exact Or.inr ⟨q3, List.mem_cons_of_mem _ hq3, hc3⟩

theorem serializeValue_no_nl (v : Value) (hv : WfValue v) :
    ∀ c ∈ serializeValue v, c ≠ '\n' := by
  cases v with
  | str s => exact fun c hc hcc => hv.2.2.1 (hcc ▸ hc)
  | list items =>
    intro c hc hcc
    subst hcc
    rcases List.mem_cons.mp hc with h1 | h1
    · exact absurd h1 (by decide)
    · rcases List.mem_append.mp h1 with h2 | h2
      · rcases mem_intercalate _ _ h2 with h3 | ⟨q, hq, hcq⟩
        · exact absurd h3 (by decide)
        · obtain ⟨j, hj, rfl⟩ := List.mem_map.mp hq
          rcases List.mem_cons.mp hcq with h4 | h4
          · exact absurd h4 (by decide)
          · rcases List.mem_append.mp h4 with h5 | h5
            · exact (hv j hj).2 h5
            · exact absurd h5 (by decide)
      · exact absurd h2 (by decide)

theorem serializeEntry_no_nl (k : PyStr) (v : Value) (hk : WfKey k) (hv : WfValue v) :
    ∀ c ∈ serializeEntry (k, v), c ≠ '\n' := by
  intro c hc
  rcases List.mem_append.mp hc with h1 | h1
  · exact fun hcc => hk.2.2.2 (hcc ▸ h1)
  · rcases List.mem_cons.mp h1 with h2 | h2
    · exact fun hcc => absurd (hcc ▸ h2) (by decide)
    · rcases List.mem_cons.mp h2 with h3 | h3
      · exact fun hcc => absurd (hcc ▸ h3) (by decide)
      · exact serializeValue_no_nl v hv c h3

theorem serializeEntry_ne_dash3 (k : PyStr) (v : Value) :
    serializeEntry (k, v) ≠ dash3 := by
  intro heq
  have hcolon : ':' ∈ serializeEntry (k, v) :=
    List.mem_append_right _ (List.mem_cons_self _ _)
  rw [heq] at hcolon
  exact absurd hcolon (by decide)

theorem not_sep_at_line (l2 t : PyStr) (hnl : ∀ c ∈ l2, c ≠ '\n') (hd : l2 ≠ dash3) :
    ¬(sepTok.isPrefixOf ('\n' :: (l2 ++ '\n' :: t)) = true) := by
  rw [List.isPrefixOf_iff_prefix]
  rintro ⟨r, hr⟩
  injection hr with h1 hr2
  rcases l2 with _ | ⟨a, _ | ⟨b, _ | ⟨c3, _ | ⟨d, l2t⟩⟩⟩⟩
  · simp at hr2
  · simp at hr2
  · simp at hr2
  · simp at hr2
    obtain ⟨ha, hb, hc, -⟩ := hr2
    subst ha
    subst hb
    subst hc
    exact hd rfl
  · simp at hr2
    obtain ⟨-, -, -, hd4, -⟩ := hr2
    exact hnl d (by simp) hd4.symm

theorem splitAtSep_append_lines (l s : PyStr) (h : ∀ c ∈ l, c ≠ '\n') :
    splitAtSep (l ++ s) = (splitAtSep s).map (fun pq => (l ++ pq.1, pq.2)) := by
  induction l with
  | nil =>
    cases hsp : splitAtSep s with
    | none => simp [hsp]
    | some pq => simp [hsp]
  | cons c l2 ih =>
    have hpre : ¬(sepTok.isPrefixOf (c :: (l2 ++ s)) = true) := by
      rw [List.isPrefixOf_iff_prefix]
      rintro ⟨r, hr⟩
      injection hr with h1 _
      exact h c (List.mem_cons_self _ _) h1.symm
    rw [List.cons_append, splitAtSep_cons, if_neg hpre,
      ih (fun a ha => h a (List.mem_cons_of_mem _ ha))]
    cases hsp : splitAtSep s with
    | none => simp
    | some pq => simp

theorem splitAtSep_sepTok (t : PyStr) : splitAtSep (sepTok ++ t) = some ([], t) := by
  show splitAtSep ('\n' :: (['-', '-', '-', '\n'] ++ t)) = some ([], t)
  have hp : List.isPrefixOf sepTok ('\n' :: (['-', '-', '-', '\n'] ++ t)) = true :=
    List.isPrefixOf_iff_prefix.mpr ⟨t, rfl⟩
  rw [splitAtSep_cons, if_pos hp]
  rfl

theorem splitAtSep_join (lines : List PyStr)
    (h : ∀ l ∈ lines, (∀ c ∈ l, c ≠ '\n') ∧ l ≠ dash3) :
    splitAtSep (List.intercalate ['\n'] lines ++ sepTok) =
      some (List.intercalate ['\n'] lines, []) := by
  induction lines with
  | nil =>
    have := splitAtSep_sepTok []
    rw [List.append_nil] at this
    simpa using this
  | cons l ls ih =>
    cases ls with
    | nil =>
      rw [intercalate_one,
        splitAtSep_append_lines l sepTok (h l (List.mem_cons_self _ _)).1]
      have hsep : splitAtSep sepTok = some ([], []) := by
        have := splitAtSep_sepTok []
        rwa [List.append_nil] at this
      rw [hsep, Option.map_some']
      simp
    | cons l2 ls2 =>
      rw [intercalate_two]
      have hre : (l ++ ['\n'] ++ List.intercalate ['\n'] (l2 :: ls2)) ++ sepTok =
          l ++ ('\n' :: (List.intercalate ['\n'] (l2 :: ls2) ++ sepTok)) := by
        simp
      rw [hre, splitAtSep_append_lines l _ (h l (List.mem_cons_self _ _)).1]
      have hshape : ∃ t, List.intercalate ['\n'] (l2 :: ls2) ++ sepTok = l2 ++ '\n' :: t := by
        cases ls2 with
        | nil =>
          rw [intercalate_one]
          exact ⟨['-', '-', '-', '\n'], rfl⟩
        | cons l3 ls3 =>
          rw [intercalate_two]
          refine ⟨List.intercalate ['\n'] (l3 :: ls3) ++ sepTok, ?_⟩
          simp
      obtain ⟨t, ht⟩ := hshape
      have hnp : ¬(sepTok.isPrefixOf ('\n' :: (List.intercalate ['\n'] (l2 :: ls2) ++ sepTok)) = true) := by
        rw [ht]
        exact not_sep_at_line l2 t (h l2 (List.mem_cons_of_mem _ (List.mem_cons_self _ _))).1
          (h l2 (List.mem_cons_of_mem _ (List.mem_cons_self _ _))).2
      rw [splitAtSep_cons, if_neg hnp,
        ih (fun l3 hl3 => h l3 (List.mem_cons_of_mem _ hl3)), Option.map_some',
        Option.map_some']
      simp

/-! ## Lemmas: folding the re-serialized lines -/

theorem dictInsert_fresh (acc : Dict) (k : PyStr) (v : Value)
    (h : ∀ q ∈ acc, q.1 ≠ k) : dictInsert k v acc = acc ++ [(k, v)] := by
  unfold dictInsert
  have hne : ¬(acc.any (fun p => decide (p.1 = k)) = true) := by
    intro hany
    obtain ⟨q, hq, hdec⟩ := List.any_eq_true.mp hany
    rw [decide_eq_true_eq] at hdec
    exact h q hq hdec
  rw [if_neg hne]

theorem foldl_serialized (m : Dict) : ∀ acc : Dict,
    (∀ p ∈ m, WfKey p.1 ∧ WfValue p.2) →
    (m.map Prod.fst).Nodup →
    (∀ p ∈ m, ∀ q ∈ acc, q.1 ≠ p.1) →
    (m.map serializeEntry).foldl processLine acc = acc ++ m := by
  induction m with
  | nil =>
    intro acc _ _ _
    simp
  | cons p m2 ih =>
    intro acc hwf hnd hdisj
    obtain ⟨k, v⟩ := p
    rw [List.map_cons] at hnd
    have hnd2 : (m2.map Prod.fst).Nodup := (List.nodup_cons.mp hnd).2
    have hk2 : k ∉ m2.map Prod.fst := (List.nodup_cons.mp hnd).1
    rw [List.map_cons, List.foldl_cons]
    have hline : processLine acc (serializeEntry (k, v)) = acc ++ [(k, v)] := by
      unfold processLine
      rw [lineKV_serialized k v (hwf (k, v) (List.mem_cons_self _ _)).1
        (hwf (k, v) (List.mem_cons_self _ _)).2]
      exact dictInsert_fresh acc k v
        (fun q hq => hdisj (k, v) (List.mem_cons_self _ _) q hq)
    rw [hline]
    have hdisj2 : ∀ p2 ∈ m2, ∀ q ∈ acc ++ [(k, v)], q.1 ≠ p2.1 := by
      intro p2 hp q hq
      rcases List.mem_append.mp hq with hq1 | hq1
      · exact hdisj p2 (List.mem_cons_of_mem _ hp) q hq1
      · rw [List.mem_singleton] at hq1
        subst hq1
        intro heq
        exact hk2 (by
          show (k, v).1 ∈ List.map Prod.fst m2
          rw [heq]
          exact List.mem_map_of_mem Prod.fst hp)
    rw [ih (acc ++ [(k, v)]) (fun p2 hp => hwf p2 (List.mem_cons_of_mem _ hp)) hnd2 hdisj2]
    simp

/-! ## C2: serialize-reparse round trip -/

/-- C2: for every metadata mapping whose keys and values fit the shapes
the format supports (trimmed colon-free newline-free keys, pairwise
distinct; trimmed scalar values that are neither bracket-shaped nor
wrapped in a matching quote pair; list items free of commas and
newlines), re-serializing the mapping into key-colon-value lines — list
values in bracketed, comma-separated, quoted form — between the two
dash marker lines and parsing the result again yields exactly the
original mapping. -/
theorem claim_roundtrip_reparse (m : Dict) (h : WfDict m) :
    parse_frontmatter (serializeFrontmatter m) = (m, []) := by
  obtain ⟨hnd, hwf⟩ := h
  cases m with
  | nil => decide
  | cons p m2 =>
    obtain ⟨k, v⟩ := p
    have hlines : ∀ l ∈ ((k, v) :: m2).map serializeEntry,
        (∀ c ∈ l, c ≠ '\n') ∧ l ≠ dash3 := by
      intro l hl
      obtain ⟨p2, hp2, rfl⟩ := List.mem_map.mp hl
      obtain ⟨k2, v2⟩ := p2
      exact ⟨serializeEntry_no_nl k2 v2 (hwf (k2, v2) hp2).1 (hwf (k2, v2) hp2).2,
        serializeEntry_ne_dash3 k2 v2⟩
    show parse_frontmatter (openTok ++ (List.intercalate ['\n']
      (((k, v) :: m2).map serializeEntry) ++ sepTok)) = _
    unfold parse_frontmatter
    rw [matchFrontmatter_append, splitAtSep_join _ hlines]
    show ((pySplit '\n' (List.intercalate ['\n']
      (((k, v) :: m2).map serializeEntry))).foldl processLine [], pyStrip []) = _
    rw [pySplit_intercalate '\n' _ (by simp) (fun l hl => (hlines l hl).1)]
    rw [foldl_serialized _ [] hwf hnd (fun p2 _ q hq => absurd hq (List.not_mem_nil q))]
    rfl

/-- Witness for C2 at a two-entry mapping with a scalar and a list. -/
theorem claim_roundtrip_reparse_witness :
    WfDict [("title".toList, Value.str "A".toList),
      ("labels".toList, Value.list ["a".toList, "b".toList])] ∧
    parse_frontmatter (serializeFrontmatter
      [("title".toList, Value.str "A".toList),
       ("labels".toList, Value.list ["a".toList, "b".toList])]) =
      ([("title".toList, Value.str "A".toList),
        ("labels".toList, Value.list ["a".toList, "b".toList])], []) :=
  ⟨by decide, claim_roundtrip_reparse _ (by decide)⟩

end FanEngagement
